import Mathlib

/-!
# Verification of the facil.io core specification

Shallow embedding of the facil.io core (`lib/facil/fio.h`,
`src/http/http1_response.c`).  Functions present in the sources are
translated directly; behaviour that the header only declares (the reactor
implementation `fio.c` is not part of the sources) is modelled from the
specification, with each such definition marked `Modelled from the spec:`.
-/

namespace Fio

/- *************************************************************************
   Spin locking (fio.h, `fio_trylock` / `fio_unlock`, lines 2489-2501)

   `fio_lock_i` is a `uint8_t`; `fio_trylock` performs an atomic exchange
   with 1 and returns the previous value, `fio_unlock` exchanges with 0.
   We model a lock value as a `Nat` (< 256) and each operation as a pure
   function returning (previous value, new lock state).
   ************************************************************************* -/

/-- The atomic exchange `fio_atomic_xchange` on a `uint8_t`: stores `v` and
returns the previous value (fio.h line 1712, `__atomic_exchange_n`). -/
def fio_atomic_xchange (lock v : Nat) : Nat × Nat := (lock, v % 256)

/-- Try-lock `fio_trylock` (fio.h lines 2490-2495): exchanges the lock with 1
and returns the previous value; result `(returned, new lock state)`. -/
def fio_trylock (lock : Nat) : Nat × Nat := fio_atomic_xchange lock 1

/-- Unlock `fio_unlock` (fio.h lines 2498-2501): exchanges the lock with 0;
result is the new lock state. -/
def fio_unlock (lock : Nat) : Nat := (fio_atomic_xchange lock 0).2

/-- Lock state reader `fio_is_locked` (fio.h lines 2504-2507): non-zero means
busy. -/
def fio_is_locked (lock : Nat) : Nat := lock

/- *************************************************************************
   UUID composition (fio.h, `fio_uuid2fd` macro, line 1000)

   `#define fio_uuid2fd(uuid) ((int)((uintptr_t)uuid >> 8))`
   The uuid is an `intptr_t` (64-bit); we model it as a Nat modulo 2^64.
   The `(int)` cast keeps the low 32 bits.
   ************************************************************************* -/

/-- Conversion `fio_uuid2fd` (fio.h line 1000): shift the 64-bit uuid right by
8 and truncate to a 32-bit `int` (we model the non-negative range). -/
def fio_uuid2fd (uuid : Nat) : Nat := ((uuid % 2 ^ 64) / 2 ^ 8) % 2 ^ 32

/-- UUID composition as documented by the spec: `uuid = (fd << 8) | generation`
with an 8-bit generation.  Since `generation < 256`, the `|` is `+`. -/
def mk_uuid (fd generation : Nat) : Nat := fd * 2 ^ 8 + generation % 2 ^ 8

/- *************************************************************************
   `fio_write` (fio.h lines 936-946, inline in the header)

   ```
   if (!length || !buffer) return 0;
   void *cpy = fio_malloc(length);
   if (!cpy) return -1;
   memcpy(cpy, buffer, length);
   return fio_write2(uuid, .data.buffer = cpy, .length = length,
                     .after.dealloc = fio_free);
   ```
   We model a caller buffer as `Option (List Nat)` (`none` = NULL pointer);
   its `length` is passed separately, as in C.  `fio_malloc` may fail, which
   we expose as the parameter `allocOk`.  `fio_write2_fn` lives in the
   missing `fio.c`, so `fio_write` is parameterized by an arbitrary
   enqueue function `write2` acting on a state `σ`; `fio_write` itself
   never touches the state except through `write2`.
   ************************************************************************* -/

/-- A packet handed to `fio_write2` by `fio_write`: the copied bytes, the
length, and the fact that the deallocator is `fio_free`. -/
structure WritePacket where
  bytes : List Nat
  length : Nat
  dealloc_is_fio_free : Bool
deriving Repr, DecidableEq

/-- The inline function `fio_write` (fio.h lines 936-946).  Returns
`(return value, new state)`.
`buffer` is `none` for a NULL pointer; `length` is the byte count the
caller passes; `allocOk` tells whether `fio_malloc` succeeds; `write2`
is the (header-only declared) `fio_write2_fn`. -/
def fio_write {σ : Type} (write2 : WritePacket → σ → Int × σ)
    (allocOk : Bool) (uuidState : σ)
    (buffer : Option (List Nat)) (length : Nat) : Int × σ :=
  match buffer with
  | none => (0, uuidState)
  | some b =>
    if length = 0 then (0, uuidState)
    else if !allocOk then (-1, uuidState)
    else write2 ⟨b.take length, length, true⟩ uuidState

/- *************************************************************************
   HTTP/1 response header writing (http1_response.c)

   The response buffer is a byte array of capacity HTTP1_MAX_HEADER_SIZE
   with a write cursor `buffer_end`.  We model the buffer as a total map
   `Nat → Nat` (out-of-range C writes are the same pointwise update) and
   keep the capacity as an explicit field so the constants need not be
   guessed (`HTTP1_MAX_HEADER_SIZE` is defined in a header outside the
   sources; `H1P_OVERFLOW_PADDING = 128`).
   ************************************************************************* -/

/-- Constant `H1P_OVERFLOW_PADDING` (http1_response.c line 9). -/
def H1P_OVERFLOW_PADDING : Nat := 128

/-- The parts of `http1_response_s` that header writing touches
(http1_response.c lines 15-22): the byte buffer, the write cursor
`buffer_end`, and the compile-time capacity `HTTP1_MAX_HEADER_SIZE`. -/
structure H1Response where
  buffer : Nat → Nat
  buffer_end : Nat
  max_header_size : Nat

/-- Write the bytes `src` into `buf` starting at index `pos` (C `memcpy`). -/
def memcpyAt (buf : Nat → Nat) (pos : Nat) (src : List Nat) : Nat → Nat :=
  fun i => if h : pos ≤ i ∧ i < pos + src.length then
    src.get ⟨i - pos, by omega⟩ else buf i

/-- Bounded copy `h1p_protected_copy` (http1_response.c lines 104-109):

```
if (len + rs->buffer_end >= HTTP1_MAX_HEADER_SIZE - H1P_OVERFLOW_PADDING)
  return -1;
memcpy(rs->buffer + rs->buffer_end, buff, len);
rs->buffer_end += len;
```
The C function falls off the end without a `return` on the success path;
every caller treats a non-zero result as failure, so the intended success
value 0 is used.  Result `(return value, new response state)`. -/
def h1p_protected_copy (rs : H1Response) (buff : List Nat) (len : Nat) :
    Int × H1Response :=
  if len + rs.buffer_end ≥ rs.max_header_size - H1P_OVERFLOW_PADDING then
    (-1, rs)
  else
    (0, { rs with
          buffer := memcpyAt rs.buffer rs.buffer_end (buff.take len),
          buffer_end := rs.buffer_end + len })

/-- Write one byte at `buffer_end` and advance it
(C `rs->buffer[rs->buffer_end++] = c`). -/
def pushByte (rs : H1Response) (c : Nat) : H1Response :=
  { rs with buffer := memcpyAt rs.buffer rs.buffer_end [c],
            buffer_end := rs.buffer_end + 1 }

/-- A header argument of `http1_response_write_header_fn`: name bytes,
`name_len`, data bytes, `data_len` (lengths are passed separately in C). -/
structure H1Header where
  name : List Nat
  name_len : Nat
  data : List Nat
  data_len : Nat

/-- Header writer `http1_response_write_header_fn` (http1_response.c lines
217-235):

```
if (rs->buffer_end + header.name_len + header.data_len >=
    HTTP1_MAX_HEADER_SIZE - H1P_OVERFLOW_PADDING - 5)
  return -1;
size_t org_pos = rs->buffer_end;
if (h1p_protected_copy(rs, header.name, header.name_len)) goto error;
rs->buffer_end += header.name_len;
rs->buffer[rs->buffer_end++] = ':';
if (h1p_protected_copy(rs, header.data, header.data_len)) goto error;
rs->buffer[rs->buffer_end++] = '\r';
rs->buffer[rs->buffer_end++] = '\n';
return 0;
error:
  rs->buffer_end = org_pos;
  return -1;
```
Note the source advances `buffer_end` by `name_len` a second time after
`h1p_protected_copy` already advanced it; the model reproduces this.
Result `(return value, new response state)`. -/
def http1_response_write_header_fn (rs : H1Response) (header : H1Header) :
    Int × H1Response :=
  if rs.buffer_end + header.name_len + header.data_len ≥
      rs.max_header_size - H1P_OVERFLOW_PADDING - 5 then
    (-1, rs)
  else
    let org_pos := rs.buffer_end
    let r1 := h1p_protected_copy rs header.name header.name_len
    if r1.1 ≠ 0 then (-1, { r1.2 with buffer_end := org_pos })
    else
      let rs1 := { r1.2 with buffer_end := r1.2.buffer_end + header.name_len }
      let rs2 := pushByte rs1 58
      let r2 := h1p_protected_copy rs2 header.data header.data_len
      if r2.1 ≠ 0 then (-1, { r2.2 with buffer_end := org_pos })
      else
        let rs3 := pushByte r2.2 13
        let rs4 := pushByte rs3 10
        (0, rs4)

/- *************************************************************************
   Connection table and UUID lifecycle.

   The reactor implementation (`fio.c`) is not part of the sources; only the
   declarations (`fio_is_valid`, `fio_close`, `fio_protocol_s`) are.  The
   slot lifecycle is therefore modelled from the specification.
   ************************************************************************* -/

/-- Modelled from the spec: one connection slot of the connection table
(`fio.c` is missing; spec section 3, "Connection slot").  `generation` is an
8-bit monotonically increasing counter, bumped on every open and close;
`isOpen` is the open/closed part of `state_flags`. -/
structure Slot where
  generation : Nat
  isOpen : Bool
deriving Repr, DecidableEq

/-- Modelled from the spec: `register(fd, protocol) -> uuid` (spec section
4.2; `fio.c` is missing).  Bumps the 8-bit generation, sets the slot state to
open and returns the composite UUID `(fd << 8) | generation`. -/
def slot_register (fd : Nat) (s : Slot) : Nat × Slot :=
  let g := (s.generation + 1) % 2 ^ 8
  (mk_uuid fd g, { generation := g, isOpen := true })

/-- Modelled from the spec: the close path of `fio_close`/`fio_force_close`
(spec section 4.2; `fio.c` is missing).  Runs `on_close`, closes the
descriptor and "then bumps generation again (so post-close uuids cannot alias
to the next open)".  Closing an already-closed slot changes nothing. -/
def slot_close (s : Slot) : Slot :=
  if s.isOpen then { generation := (s.generation + 1) % 2 ^ 8, isOpen := false }
  else s

/-- Modelled from the spec: `fio_is_valid` (declared at fio.h lines 793-798,
implemented in the missing `fio.c`).  A uuid is valid exactly when the slot is
open and the slot's current generation matches the uuid's low 8 bits (spec
section 3: "a UUID refers to a slot only while the slot's current generation
matches"). -/
def fio_is_valid (fd uuid : Nat) (s : Slot) : Bool :=
  s.isOpen && uuid % 2 ^ 8 == s.generation && uuid / 2 ^ 8 == fd

/-- Modelled from the spec: a register/close operation on one fd slot (the
sequences quantified over by the UUID-aliasing property, spec section 8). -/
inductive SlotOp where
  | register
  | close
deriving Repr, DecidableEq

/-- Modelled from the spec: apply one slot operation.  A `register` on an
occupied slot and a `close` on an empty slot change nothing (the OS cannot
hand out an fd that is still open, and there is no connection to close). -/
def slotStep (s : Slot) : SlotOp → Slot
  | .register => if s.isOpen then s else (slot_register 0 s).2
  | .close => slot_close s

/-- Modelled from the spec: run a sequence of register/close operations on
one fd slot. -/
def runOps (s : Slot) : List SlotOp → Slot
  | [] => s
  | op :: rest => runOps (slotStep s op) rest

/-- Modelled from the spec: a uuid-keyed operation (read, write, attach,
link, close).  Every such operation first resolves the uuid; a stale uuid
makes it fail with invalid-uuid (`-1`) and change nothing (spec section 4.2:
"Stale -> all callers treat as closed"). -/
def uuid_op (fd uuid : Nat) (f : Slot → Slot) (s : Slot) : Int × Slot :=
  if fio_is_valid fd uuid s then (0, f s) else (-1, s)

/-- A register/close cycle repeated `n` times, used to drive the generation
counter around its 8-bit range. -/
def registerCloseCycles : Nat → List SlotOp
  | 0 => []
  | n + 1 => SlotOp.register :: SlotOp.close :: registerCloseCycles n

/- *************************************************************************
   Write scheduler: packet queue with urgent insertion and byte-level flush.

   The write scheduler lives in the missing `fio.c`; `fio_write_args_s`
   (fio.h lines 852-897) declares the packet fields (`buffer`, `length`,
   `offset`, `urgent`).  The queue and the flushing algorithm are modelled
   from spec section 4.4.
   ************************************************************************* -/

/-- Modelled from the spec: one packet of a connection's write queue (spec
section 3, "Packet"): the payload bytes and the transmission offset (bytes
already written to the socket).  Memory and file packets both reduce to
their byte contents for ordering purposes. -/
structure Packet where
  bytes : List Nat
  offset : Nat
deriving Repr, DecidableEq

/-- The bytes of a packet that have not been transmitted yet. -/
def Packet.remaining (p : Packet) : List Nat := p.bytes.drop p.offset

/-- Modelled from the spec: enqueueing a packet (spec section 4.4): "On
enqueue the packet is appended (tail) or prepended (head, if `urgent`)",
where an urgent packet is inserted "before any packet whose transmission has
not yet begun (a partially written packet stays in front)" (spec section 8,
property 3). -/
def enqueuePacket (urgent : Bool) (b : List Nat) (q : List Packet) :
    List Packet :=
  if urgent then
    match q with
    | [] => [⟨b, 0⟩]
    | h :: t => if 0 < h.offset then h :: ⟨b, 0⟩ :: t else ⟨b, 0⟩ :: h :: t
  else q ++ [⟨b, 0⟩]

/-- An event on a connection's write side: a `fio_write2` enqueue, or one
pass of the flusher in which the rw-hook write accepts `n` bytes. -/
inductive WriteEv where
  | enq (urgent : Bool) (bytes : List Nat)
  | flush (n : Nat)
deriving Repr, DecidableEq

/-- Modelled from the spec: the write-side state of one connection: the
packet queue and the byte stream delivered to the peer so far. -/
structure WQState where
  queue : List Packet
  delivered : List Nat
deriving Repr, DecidableEq

/-- Modelled from the spec: one step of the write machine.  A flush follows
spec section 4.4: write a chunk from the head packet, "advance `offset` by
return value; if now equal to length, pop packet".  `n` is the byte count
the rw-hook accepts during this pass (0 models would-block). -/
def wqStep (s : WQState) : WriteEv → WQState
  | .enq u b => { s with queue := enqueuePacket u b s.queue }
  | .flush n =>
    match s.queue with
    | [] => s
    | h :: t =>
      let k := min n (h.bytes.length - h.offset)
      if h.offset + k = h.bytes.length then
        ⟨t, s.delivered ++ (h.bytes.drop h.offset).take k⟩
      else
        ⟨⟨h.bytes, h.offset + k⟩ :: t, s.delivered ++ (h.bytes.drop h.offset).take k⟩

/-- Run the write machine over an event sequence. -/
def runWQ (s : WQState) : List WriteEv → WQState
  | [] => s
  | ev :: rest => runWQ (wqStep s ev) rest

/-- Concatenation of a list of byte lists. -/
def flattenBytes : List (List Nat) → List Nat
  | [] => []
  | b :: t => b ++ flattenBytes t

/-- The bytes of the write queue that are still pending transmission. -/
def pendingBytes (q : List Packet) : List Nat :=
  flattenBytes (q.map Packet.remaining)

/-- Well-formedness of a write-queue state: a begun head packet is never
fully written (it would have been popped), and only the head packet can have
a non-zero offset. -/
def WQWF (s : WQState) : Prop :=
  (∀ p ∈ s.queue.head?, 0 < p.offset → p.offset < p.bytes.length) ∧
  ∀ p ∈ s.queue.tail, p.offset = 0

/-- Follows the claim's words (the FIFO-writes property, spec section 8,
property 3), not the source: the peer-observed stream, maintained at packet
granularity.  `fixedStream` is the part of the stream whose order can no
longer be affected by an urgent insertion (delivered bytes plus the packet
currently being transmitted, in full); `begunRem` is how many trailing bytes
of `fixedStream` are still untransmitted; `pkts` are the queued packets whose
transmission has not yet begun, in order. -/
structure SpecWQ where
  fixedStream : List Nat
  begunRem : Nat
  pkts : List (List Nat)
deriving Repr, DecidableEq

/-- Follows the claim's words: non-urgent packets join the queue in
enqueue-call order; an urgent packet is inserted at the head, before any
packet whose transmission has not yet begun; a flush that begins a packet
commits it to the stream (a partially written packet stays in front). -/
def specWQStep (t : SpecWQ) : WriteEv → SpecWQ
  | .enq true b => { t with pkts := b :: t.pkts }
  | .enq false b => { t with pkts := t.pkts ++ [b] }
  | .flush n =>
    if 0 < t.begunRem then { t with begunRem := t.begunRem - n }
    else
      match t.pkts with
      | [] => t
      | p :: rest =>
        if n = 0 ∧ p ≠ [] then t
        else ⟨t.fixedStream ++ p, p.length - n, rest⟩

/-- Run the claim-side stream machine over an event sequence. -/
def runSpecWQ (t : SpecWQ) : List WriteEv → SpecWQ
  | [] => t
  | ev :: rest => runSpecWQ (specWQStep t ev) rest

/-- Abstraction from the byte-level write machine to the claim-side stream
machine. -/
def wqAbs (s : WQState) : SpecWQ :=
  match s.queue with
  | [] => ⟨s.delivered, 0, []⟩
  | h :: t =>
    if 0 < h.offset then
      ⟨s.delivered ++ h.remaining, h.remaining.length, t.map Packet.bytes⟩
    else
      ⟨s.delivered, 0, h.bytes :: t.map Packet.bytes⟩

/- *************************************************************************
   Graceful close: drain before `on_close`.

   `fio_close` is declared at fio.h lines 807-813 ("marks the connection for
   disconnection once all the data was sent.  The actual disconnection will
   be managed by the `fio_flush` function"); the close path itself lives in
   the missing `fio.c` and is modelled from spec sections 4.2 and 4.4.
   ************************************************************************* -/

/-- Modelled from the spec: the life of one connection around a graceful
close: the write queue, the closing flag set by `fio_close`, whether the
protocol's `on_close` has run, whether an io-fatal error occurred, the
delivered bytes, and (as bookkeeping for the statement) the multiset of all
bytes accepted into the queue. -/
structure ConnState where
  queue : List Packet
  closing : Bool
  onCloseRan : Bool
  fatal : Bool
  delivered : List Nat
  accepted : Multiset Nat
deriving DecidableEq

/-- Events on one connection around a graceful close: a `fio_write2`
enqueue, the `fio_close` call, one flusher pass accepting `n` bytes, or an
io-fatal error (which schedules a force-close, spec section 4.4 step 3). -/
inductive ConnEv where
  | write (urgent : Bool) (bytes : List Nat)
  | close
  | flush (n : Nat)
  | ioFatal
deriving Repr, DecidableEq

/-- Modelled from the spec: one step of the connection machine.  Writes on a
closing or closed connection are rejected and change nothing; `fio_close`
sets the closing flag; a flush drains the head packet and, once the queue is
empty and the connection is closing, runs `on_close` (spec section 4.2:
"when write queue drains ... runs `on_close`"); an io-fatal error terminates
in `on_close` immediately, dropping the queue (spec section 7). -/
def connStep (s : ConnState) : ConnEv → ConnState
  | .write u b =>
    if s.closing || s.onCloseRan then s
    else { s with queue := enqueuePacket u b s.queue,
                  accepted := s.accepted + (b : Multiset Nat) }
  | .close => if s.onCloseRan then s else { s with closing := true }
  | .flush n =>
    if s.onCloseRan then s
    else
      let w := wqStep ⟨s.queue, s.delivered⟩ (.flush n)
      { s with queue := w.queue, delivered := w.delivered,
               onCloseRan := s.closing && w.queue.isEmpty }
  | .ioFatal =>
    if s.onCloseRan then s
    else { s with fatal := true, onCloseRan := true, queue := [] }

/-- Run the connection machine over an event sequence. -/
def runConn (s : ConnState) : List ConnEv → ConnState
  | [] => s
  | ev :: rest => runConn (connStep s ev) rest

/-- The initial state of a fresh connection. -/
def connInit : ConnState := ⟨[], false, false, false, [], 0⟩

/-- The multiset of bytes still pending in a packet queue. -/
def pendingMS (q : List Packet) : Multiset Nat :=
  (q.map fun p => (p.remaining : Multiset Nat)).sum

/- *************************************************************************
   Pub/sub dispatch: literal channels, pattern channels, filters.

   `subscribe_args_s` (fio.h lines 1424-1464) and `fio_match_fn` (fio.h
   lines 1407-1411) are declared in the header; the dispatch itself lives in
   the missing `fio.c` and is modelled from spec sections 4.9 and 8.  The
   match polarity follows the `fio_match_fn` contract in the header:
   "Pattern matching callback type - should return 0 unless channel matches
   pattern", i.e. a non-zero return means the channel matches.
   ************************************************************************* -/

/-- Modelled from the spec: one subscription (`subscribe_args_s`, fio.h
lines 1424-1464): a numerical filter (0 means pub/sub, non-zero selects the
typed-IPC namespace), a channel name (a pattern when `isPattern` is set),
and the `match` function (field renamed `matcher`; `match` is reserved). -/
structure Subscription where
  filter : Int
  channel : String
  isPattern : Bool
  matcher : String → String → Int

/-- Modelled from the spec: whether a published message with the given
filter and channel is forwarded to a subscription.  Filter subscriptions
ignore channels entirely (spec section 4.9); channel subscriptions receive
only messages with filter 0 whose channel matches exactly, and pattern
subscriptions those where the matcher returns non-zero (the `fio_match_fn`
contract, fio.h lines 1407-1411). -/
def deliverTo (sub : Subscription) (filter : Int) (channel : String) : Bool :=
  if sub.filter ≠ 0 then sub.filter == filter
  else
    filter == 0 &&
      (if sub.isPattern then sub.matcher sub.channel channel != 0
       else sub.channel == channel)

/-- Modelled from the spec: the in-process dispatch of one publish to a
worker's subscription list, returning the indices (from `i`) of the
subscriptions that observe the message, each at most once. -/
def workerDeliv (i : Nat) (subs : List Subscription) (filter : Int)
    (channel : String) : List Nat :=
  match subs with
  | [] => []
  | sub :: rest =>
    (if deliverTo sub filter channel then [i] else []) ++
      workerDeliv (i + 1) rest filter channel

/-- Modelled from the spec: the CLUSTER-scope fan-out (spec section 4.9):
the publish "is serialized once, sent to root, and root fans it out" so that
every worker of the root — the publishing process included — dispatches it
locally exactly once.  Returns `(worker index, subscription index)` pairs,
one per delivery. -/
def clusterDeliv (w : Nat) (workers : List (List Subscription)) (filter : Int)
    (channel : String) : List (Nat × Nat) :=
  match workers with
  | [] => []
  | subs :: rest =>
    (workerDeliv 0 subs filter channel).map (fun i => (w, i)) ++
      clusterDeliv (w + 1) rest filter channel

/-- Whether a subscription's channel matches a published channel name:
literally for plain subscriptions, and through the `match` callback for
pattern subscriptions — non-zero meaning a match, per the `fio_match_fn`
contract (fio.h lines 1407-1411). -/
def channelMatches (sub : Subscription) (channel : String) : Bool :=
  if sub.isPattern then sub.matcher sub.channel channel != 0
  else sub.channel == channel

/- *************************************************************************
   Timers: `fio_run_every`.

   `fio_run_every` is declared at fio.h lines 1242-1243 ("The task will
   repeat `repetitions` times.  If `repetitions` is set to 0, task will
   repeat forever. ... The `on_finish` handler is always called"); the timer
   wheel lives in the missing `fio.c` and is modelled from spec section 4.6:
   "On fire: run the task body, decrement repetitions; if zero, run
   `on_finish`; else reschedule."
   ************************************************************************* -/

/-- Modelled from the spec: one timer of the timer wheel.  `interval` is the
period in milliseconds, `reps` the remaining repetitions (0 is the
repeat-forever sentinel, as in `fio_run_every`), `deadline` the absolute
time of the next fire.  `fires` records the times the task body ran and
`finishCount` how many times `on_finish` ran (bookkeeping for the
statement); `active` is cleared when the timer is retired. -/
structure Timer where
  interval : Nat
  reps : Nat
  deadline : Nat
  fires : List Nat
  finishCount : Nat
  active : Bool
deriving Repr, DecidableEq

/-- Modelled from the spec: `fio_run_every(milliseconds, repetitions, task,
arg, on_finish)` called at absolute time `start` creates a timer whose first
deadline is one interval away. -/
def fio_run_every (milliseconds repetitions start : Nat) : Timer :=
  ⟨milliseconds, repetitions, start + milliseconds, [], 0, true⟩

/-- A timer event: the reactor reaches time `t` and checks the timer, or the
worker shuts down (which retires every timer, running its `on_finish`;
fio.h: "The `on_finish` handler is always called"). -/
inductive TimerEv where
  | tick (t : Nat)
  | shutdown
deriving Repr, DecidableEq

/-- Modelled from the spec: one step of the timer machine.  A tick at time
`t` fires the timer when the deadline has passed: the task body runs, then
repetitions are decremented — reaching zero runs `on_finish` and retires the
timer, otherwise the timer is rescheduled one interval after the fire; the
sentinel `reps = 0` reschedules forever.  A shutdown retires a live timer
and runs its `on_finish` once. -/
def timerStep (tm : Timer) : TimerEv → Timer
  | .tick t =>
    if tm.active ∧ tm.deadline ≤ t then
      if tm.reps = 1 then
        { tm with fires := tm.fires ++ [t], reps := 0,
                  finishCount := tm.finishCount + 1, active := false }
      else if tm.reps = 0 then
        { tm with fires := tm.fires ++ [t], deadline := t + tm.interval }
      else
        { tm with fires := tm.fires ++ [t], reps := tm.reps - 1,
                  deadline := t + tm.interval }
    else tm
  | .shutdown =>
    if tm.active then
      { tm with active := false, finishCount := tm.finishCount + 1 }
    else tm

/-- Run the timer machine over an event sequence. -/
def runTimer (tm : Timer) : List TimerEv → Timer
  | [] => tm
  | ev :: rest => runTimer (timerStep tm ev) rest

/-- Consecutive elements of the list are at least `m` apart. -/
def spacedBy (m : Nat) (l : List Nat) : Prop :=
  List.Chain' (fun a b => a + m ≤ b) l

/-- The canonical tick schedule that lets a timer with deadline `d` and
interval `m` fire `r` consecutive times. -/
def ticksFrom (d m : Nat) : Nat → List Nat
  | 0 => []
  | r + 1 => d :: ticksFrom (d + m) m r

/- *************************************************************************
   Theorems
   ************************************************************************* -/

/-- C6: non-blocking try-lock.  `fio_trylock` on an unlocked lock (value 0)
acquires it — the lock becomes 1 — and returns 0; on an already-locked lock
it returns busy (non-zero) and leaves the lock locked; `fio_unlock` restores
the unlocked state 0.  `fio_trylock` is a single atomic exchange, so it
never blocks. -/
theorem fio_trylock_nonblocking (l : Nat) :
    ((fio_trylock 0).2 = 1 ∧ (fio_trylock 0).1 = 0) ∧
    (l ≠ 0 → (fio_trylock l).1 ≠ 0 ∧ (fio_trylock l).2 ≠ 0) ∧
    fio_unlock l = 0 := by
  refine ⟨⟨rfl, rfl⟩, fun h => ⟨?_, ?_⟩, rfl⟩ <;>
    simp [fio_trylock, fio_atomic_xchange, h]

/-- Witness for C6 at the concrete locked value 1. -/
theorem fio_trylock_nonblocking_witness :
    (1 : Nat) ≠ 0 ∧ (fio_trylock 1).1 ≠ 0 ∧ (fio_trylock 1).2 ≠ 0 :=
  ⟨by decide, (fio_trylock_nonblocking 1).2.1 (by decide)⟩

/-- C7: UUID round trip.  For every fd below the `int` range (the slot
capacity is far below it) and every 8-bit generation, `fio_uuid2fd` applied
to the composite uuid `(fd << 8) | generation` returns the fd. -/
theorem fio_uuid2fd_round_trip (fd g : Nat) (hfd : fd < 2 ^ 31)
    (hg : g < 2 ^ 8) : fio_uuid2fd (mk_uuid fd g) = fd := by
  simp only [fio_uuid2fd, mk_uuid]
  omega

/-- Witness for C7 at fd 5, generation 7. -/
theorem fio_uuid2fd_round_trip_witness :
    5 < 2 ^ 31 ∧ 7 < 2 ^ 8 ∧ fio_uuid2fd (mk_uuid 5 7) = 5 :=
  ⟨by norm_num, by norm_num,
    fio_uuid2fd_round_trip 5 7 (by norm_num) (by norm_num)⟩

/-- C9: `fio_write` edge cases and copy semantics.  With a NULL buffer or a
zero length it returns 0 and leaves the queue state untouched; when the copy
allocation fails it returns -1 and leaves the state untouched; otherwise it
hands `fio_write2` a packet carrying a copy of the first `length` caller
bytes with deallocator `fio_free` (the caller keeps its own buffer) and
returns `fio_write2`'s result. -/
theorem fio_write_edge_cases {σ : Type} (write2 : WritePacket → σ → Int × σ)
    (allocOk : Bool) (s : σ) (buffer : Option (List Nat)) (length : Nat) :
    ((buffer = none ∨ length = 0) →
      fio_write write2 allocOk s buffer length = (0, s)) ∧
    (∀ b, buffer = some b → length ≠ 0 → allocOk = false →
      fio_write write2 allocOk s buffer length = (-1, s)) ∧
    (∀ b, buffer = some b → length ≠ 0 → allocOk = true →
      fio_write write2 allocOk s buffer length =
        write2 ⟨b.take length, length, true⟩ s) := by
  refine ⟨fun h => ?_, fun b hb hl ha => ?_, fun b hb hl ha => ?_⟩
  · rcases h with h | h
    · simp [fio_write, h]
    · cases buffer <;> simp [fio_write, h]
  · subst hb ha; simp [fio_write, hl]
  · subst hb ha; simp [fio_write, hl]

/-- Witness for C9 on a concrete buffer, length 2, with a counting
`fio_write2`. -/
theorem fio_write_edge_cases_witness :
    (some [1, 2, 3] : Option (List Nat)) = some [1, 2, 3] ∧ (2 : Nat) ≠ 0 ∧
    fio_write (fun p (n : Nat) => ((p.length : Int), n + 1)) true 0
      (some [1, 2, 3]) 2 = (2, 1) :=
  ⟨rfl, by decide,
    ((fio_write_edge_cases (fun p (n : Nat) => ((p.length : Int), n + 1))
      true 0 (some [1, 2, 3]) 2).2.2 [1, 2, 3] rfl (by decide) rfl).trans rfl⟩

/-- Generation evolution: running any operation sequence on a slot with an
in-range generation bumps the generation by at most one per operation,
modulo 2^8. -/
theorem runOps_generation (ops : List SlotOp) : ∀ (s : Slot),
    s.generation < 2 ^ 8 →
    ∃ k, k ≤ ops.length ∧
      (runOps s ops).generation = (s.generation + k) % 2 ^ 8 ∧
      (runOps s ops).generation < 2 ^ 8 := by
  induction ops with
  | nil =>
    intro s hs
    exact ⟨0, Nat.le_refl 0, by simp [runOps]; omega, by
      simpa [runOps] using hs⟩
  | cons op rest ih =>
    intro s hs
    have hstep : ∃ j, j ≤ 1 ∧
        (slotStep s op).generation = (s.generation + j) % 2 ^ 8 ∧
        (slotStep s op).generation < 2 ^ 8 := by
      cases op with
      | register =>
        by_cases hop : s.isOpen
        · exact ⟨0, by omega, by simp [slotStep, hop]; omega,
            by simpa [slotStep, hop] using hs⟩
        · exact ⟨1, le_refl 1, by simp [slotStep, hop, slot_register],
            by simp [slotStep, hop, slot_register]; omega⟩
      | close =>
        by_cases hop : s.isOpen
        · exact ⟨1, le_refl 1, by simp [slotStep, slot_close, hop],
            by simp [slotStep, slot_close, hop]; omega⟩
        · exact ⟨0, by omega, by simp [slotStep, slot_close, hop]; omega,
            by simpa [slotStep, slot_close, hop] using hs⟩
    obtain ⟨j, hj, hgen, hlt⟩ := hstep
    obtain ⟨k, hk, hgen2, hlt2⟩ := ih (slotStep s op) hlt
    refine ⟨j + k, by simp; omega, ?_, by simpa [runOps] using hlt2⟩
    show (runOps (slotStep s op) rest).generation = _
    rw [hgen2, hgen]
    omega

set_option maxRecDepth 20000 in
/-- C1 counterexample: the generation counter is 8 bits wide, so a stale
uuid re-validates after its slot's generation wraps around.  Register on a
fresh slot, close (running `on_close`), then 127 further register/close
cycles and one more register bring the generation back to the stale uuid's
value with the slot open: `fio_is_valid` returns 1 for the old uuid, which
now aliases the new connection. -/
theorem stale_uuid_wraparound_counterexample :
    fio_is_valid 0 (slot_register 0 ⟨0, false⟩).1
      (runOps (slot_close (slot_register 0 ⟨0, false⟩).2)
        (registerCloseCycles 127 ++ [SlotOp.register])) = true := by
  decide

/-- C1 (amended): once a connection's `on_close` has run, every subsequent
operation on the old uuid (read, write, attach, link, close) fails with
invalid-uuid and changes nothing, and `fio_is_valid` returns 0 for it, as
long as the slot's 8-bit generation has not wrapped around — that is, for
every subsequent register/close sequence of fewer than 255 operations (each
operation bumps the generation at most once). -/
theorem stale_uuid_invalid_before_wrap (fd : Nat) (s : Slot)
    (hs : s.generation < 2 ^ 8) (ops : List SlotOp) (hops : ops.length < 255) :
    fio_is_valid fd (slot_register fd s).1
        (runOps (slot_close (slot_register fd s).2) ops) = false ∧
    ∀ f, uuid_op fd (slot_register fd s).1 f
        (runOps (slot_close (slot_register fd s).2) ops) =
      (-1, runOps (slot_close (slot_register fd s).2) ops) := by
  set g1 := (s.generation + 1) % 2 ^ 8 with hg1
  have hg1lt : g1 < 2 ^ 8 := Nat.mod_lt _ (by norm_num)
  have hreg2 : (slot_register fd s).2 = ⟨g1, true⟩ := rfl
  have hclose : slot_close (slot_register fd s).2 = ⟨(g1 + 1) % 2 ^ 8, false⟩ := by
    rw [hreg2]; rfl
  have huuid : (slot_register fd s).1 = fd * 2 ^ 8 + g1 := by
    simp only [slot_register, mk_uuid]
    omega
  obtain ⟨k, hk, hgen, -⟩ :=
    runOps_generation ops ⟨(g1 + 1) % 2 ^ 8, false⟩
      (Nat.mod_lt _ (by norm_num))
  rw [hclose]
  dsimp only at hgen
  have hne : (slot_register fd s).1 % 2 ^ 8 ≠
      (runOps ⟨(g1 + 1) % 2 ^ 8, false⟩ ops).generation := by
    rw [huuid, hgen]
    omega
  have hvalid : fio_is_valid fd (slot_register fd s).1
      (runOps ⟨(g1 + 1) % 2 ^ 8, false⟩ ops) = false := by
    simp only [fio_is_valid, Bool.and_eq_false_iff]
    left; right
    simpa [beq_eq_false_iff_ne] using hne
  exact ⟨hvalid, fun f => by unfold uuid_op; rw [hvalid]; simp⟩

/-- Witness for the amended C1 on a fresh slot with no subsequent
operations. -/
theorem stale_uuid_invalid_before_wrap_witness :
    (⟨0, false⟩ : Slot).generation < 2 ^ 8 ∧
    ([] : List SlotOp).length < 255 ∧
    fio_is_valid 0 (slot_register 0 ⟨0, false⟩).1
        (runOps (slot_close (slot_register 0 ⟨0, false⟩).2) []) = false ∧
    uuid_op 0 (slot_register 0 ⟨0, false⟩).1 id
        (runOps (slot_close (slot_register 0 ⟨0, false⟩).2) []) =
      (-1, runOps (slot_close (slot_register 0 ⟨0, false⟩).2) []) :=
  ⟨by decide, by decide,
    (stale_uuid_invalid_before_wrap 0 ⟨0, false⟩ (by decide) [] (by decide)).1,
    (stale_uuid_invalid_before_wrap 0 ⟨0, false⟩ (by decide) [] (by decide)).2 id⟩

/-- Bytes below the copy position are untouched by `memcpyAt`. -/
theorem memcpyAt_of_lt (buf : Nat → Nat) (pos : Nat) (src : List Nat)
    (i : Nat) (hi : i < pos) : memcpyAt buf pos src i = buf i := by
  unfold memcpyAt
  split
  · omega
  · rfl

/-- Bytes below the entry `buffer_end` are untouched by
`h1p_protected_copy`, and `buffer_end` never decreases. -/
theorem h1p_protected_copy_preserves (rs : H1Response) (b : List Nat)
    (l : Nat) :
    rs.buffer_end ≤ (h1p_protected_copy rs b l).2.buffer_end ∧
    ∀ i, i < rs.buffer_end →
      (h1p_protected_copy rs b l).2.buffer i = rs.buffer i := by
  unfold h1p_protected_copy
  split
  · exact ⟨Nat.le_refl _, fun i _ => rfl⟩
  · exact ⟨by simp, fun i hi => memcpyAt_of_lt _ _ _ _ hi⟩

/-- Bytes below the entry `buffer_end` are untouched by `pushByte`, and
`buffer_end` grows. -/
theorem pushByte_preserves (rs : H1Response) (c : Nat) :
    rs.buffer_end ≤ (pushByte rs c).buffer_end ∧
    ∀ i, i < rs.buffer_end → (pushByte rs c).buffer i = rs.buffer i :=
  ⟨by simp [pushByte], fun i hi => memcpyAt_of_lt _ _ _ _ hi⟩

set_option maxRecDepth 40000 in
/-- Case analysis of the header writer: it either returns 0, or returns -1
with `buffer_end` restored to its entry value and every buffer byte below
the entry `buffer_end` unchanged. -/
theorem http1_write_header_fn_cases (rs : H1Response) (hd : H1Header) :
    (http1_response_write_header_fn rs hd).1 = 0 ∨
    ((http1_response_write_header_fn rs hd).1 = -1 ∧
      (http1_response_write_header_fn rs hd).2.buffer_end = rs.buffer_end ∧
      ∀ i, i < rs.buffer_end →
        (http1_response_write_header_fn rs hd).2.buffer i = rs.buffer i) := by
  unfold http1_response_write_header_fn
  by_cases hc : rs.buffer_end + hd.name_len + hd.data_len ≥
      rs.max_header_size - H1P_OVERFLOW_PADDING - 5
  · rw [if_pos hc]
    exact Or.inr ⟨rfl, rfl, fun i _ => rfl⟩
  · rw [if_neg hc]
    dsimp only
    obtain ⟨hle1, hbuf1⟩ :=
      h1p_protected_copy_preserves rs hd.name hd.name_len
    set r1 := h1p_protected_copy rs hd.name hd.name_len with hr1
    set rs1 : H1Response :=
      { r1.2 with buffer_end := r1.2.buffer_end + hd.name_len } with hrs1
    have hrs1e : rs1.buffer_end = r1.2.buffer_end + hd.name_len := rfl
    obtain ⟨hle2, hbuf2⟩ := pushByte_preserves rs1 58
    set rs2 := pushByte rs1 58 with hrs2
    have hrs2e : rs2.buffer_end = rs1.buffer_end + 1 := rfl
    obtain ⟨hle3, hbuf3⟩ :=
      h1p_protected_copy_preserves rs2 hd.data hd.data_len
    set r2 := h1p_protected_copy rs2 hd.data hd.data_len with hr2
    by_cases h1 : r1.1 ≠ 0
    · rw [if_pos h1]
      exact Or.inr ⟨rfl, rfl, fun i hi => hbuf1 i hi⟩
    · rw [if_neg h1]
      by_cases h2 : r2.1 ≠ 0
      · rw [if_pos h2]
        refine Or.inr ⟨rfl, rfl, fun i hi => ?_⟩
        show r2.2.buffer i = rs.buffer i
        rw [hbuf3 i (by omega), hbuf2 i (by omega)]
        show r1.2.buffer i = rs.buffer i
        exact hbuf1 i hi
      · rw [if_neg h2]
        exact Or.inl rfl

/-- C10: header-write atomicity on error.  Whenever
`http1_response_write_header_fn` returns -1, the response's `buffer_end` is
restored to its value at entry, and every buffer byte below that entry
`buffer_end` — the response's logical contents — is unchanged, so a failed
header write leaves the response buffer contents and length unchanged. -/
theorem http1_write_header_error_restores (rs : H1Response) (hd : H1Header)
    (he : (http1_response_write_header_fn rs hd).1 = -1) :
    (http1_response_write_header_fn rs hd).2.buffer_end = rs.buffer_end ∧
    ∀ i, i < rs.buffer_end →
      (http1_response_write_header_fn rs hd).2.buffer i = rs.buffer i := by
  rcases http1_write_header_fn_cases rs hd with h | h
  · rw [he] at h
    exact absurd h (by norm_num)
  · exact ⟨h.2.1, h.2.2⟩

/-- Witness for C10: a concrete response object (capacity 300, cursor 80)
and a 40/40-byte header that passes the entry check but fails the second
protected copy, returning -1 with the state restored. -/
theorem http1_write_header_error_restores_witness :
    (http1_response_write_header_fn ⟨fun _ => 0, 80, 300⟩
        ⟨List.replicate 40 65, 40, List.replicate 40 66, 40⟩).1 = -1 ∧
    (http1_response_write_header_fn ⟨fun _ => 0, 80, 300⟩
        ⟨List.replicate 40 65, 40, List.replicate 40 66, 40⟩).2.buffer_end =
      80 ∧
    (http1_response_write_header_fn ⟨fun _ => 0, 80, 300⟩
        ⟨List.replicate 40 65, 40, List.replicate 40 66, 40⟩).2.buffer 3 =
      0 :=
  ⟨rfl,
    (http1_write_header_error_restores ⟨fun _ => 0, 80, 300⟩
      ⟨List.replicate 40 65, 40, List.replicate 40 66, 40⟩ rfl).1,
    (http1_write_header_error_restores ⟨fun _ => 0, 80, 300⟩
      ⟨List.replicate 40 65, 40, List.replicate 40 66, 40⟩ rfl).2 3
      (by norm_num)⟩

/-- For a pub/sub publish (filter 0), delivery is exactly channel match for
filter-0 subscriptions. -/
theorem deliverTo_filter_zero (sub : Subscription) (c : String)
    (h : sub.filter = 0) : deliverTo sub 0 c = channelMatches sub c := by
  simp [deliverTo, channelMatches, h]

/-- A subscription with a non-zero filter never observes a filter-0
publish. -/
theorem deliverTo_filter_nonzero (sub : Subscription) (c : String)
    (h : sub.filter ≠ 0) : deliverTo sub 0 c = false := by
  simp [deliverTo, h]

/-- Indices below the starting index never occur in a worker's delivery
list. -/
theorem workerDeliv_count_lt (f : Int) (c : String) :
    ∀ (subs : List Subscription) (i j : Nat), j < i →
      (workerDeliv i subs f c).count j = 0 := by
  intro subs
  induction subs with
  | nil => intro i j h; simp [workerDeliv]
  | cons sub rest ih =>
    intro i j h
    have hne : j ≠ i := by omega
    simp only [workerDeliv, List.count_append]
    rw [ih (i + 1) j (by omega)]
    by_cases hd : deliverTo sub f c
    · simp [hd, List.count_cons, hne]
    · simp [hd]

/-- The delivery count of the subscription at offset `k`: one delivery when
`deliverTo` holds, none otherwise. -/
theorem workerDeliv_count_get (f : Int) (c : String) :
    ∀ (subs : List Subscription) (i k : Nat) (h : k < subs.length),
      (workerDeliv i subs f c).count (i + k) =
        if deliverTo (subs.get ⟨k, h⟩) f c then 1 else 0 := by
  intro subs
  induction subs with
  | nil => intro i k h; exact absurd h (by simp)
  | cons sub rest ih =>
    intro i k h
    cases k with
    | zero =>
      simp only [workerDeliv, List.count_append, Nat.add_zero]
      rw [workerDeliv_count_lt f c rest (i + 1) i (by omega)]
      by_cases hd : deliverTo sub f c
      · simp [hd, List.count_cons, List.get]
      · simp [hd, List.get]
    | succ k' =>
      have hik : i + (k' + 1) = (i + 1) + k' := by omega
      simp only [workerDeliv, List.count_append]
      rw [hik, ih (i + 1) k' (by simpa using h)]
      have hne : (i + 1) + k' ≠ i := by omega
      by_cases hd : deliverTo sub f c
      · simp [hd, List.count_cons, hne, List.get]
      · simp [hd, List.get]

/-- Pairs with a worker index below the starting index never occur in the
cluster fan-out. -/
theorem clusterDeliv_count_lt (f : Int) (c : String) :
    ∀ (workers : List (List Subscription)) (w : Nat) (p : Nat × Nat),
      p.1 < w → (clusterDeliv w workers f c).count p = 0 := by
  intro workers
  induction workers with
  | nil => intro w p h; simp [clusterDeliv]
  | cons ws rest ih =>
    intro w p h
    simp only [clusterDeliv, List.count_append]
    rw [ih (w + 1) p (by omega)]
    have hmem : p ∉ (workerDeliv 0 ws f c).map (fun i => (w, i)) := by
      intro hmem
      obtain ⟨a, -, ha⟩ := List.mem_map.mp hmem
      have : p.1 = w := by rw [← ha]
      omega
    simp [List.count_eq_zero.mpr hmem]

/-- Counting a tagged pair in a tagged list counts the untagged element. -/
theorem count_map_pair (w : Nat) (l : List Nat) (i : Nat) :
    (l.map (fun j => (w, j))).count (w, i) = l.count i := by
  induction l with
  | nil => simp
  | cons a t ih =>
    simp [List.count_cons, ih, beq_iff_eq, Prod.mk.injEq]

/-- The cluster fan-out count at worker offset `k` reduces to that worker's
local dispatch count. -/
theorem clusterDeliv_count_get (f : Int) (c : String) :
    ∀ (workers : List (List Subscription)) (w k : Nat)
      (h : k < workers.length) (i : Nat),
      (clusterDeliv w workers f c).count (w + k, i) =
        (workerDeliv 0 (workers.get ⟨k, h⟩) f c).count i := by
  intro workers
  induction workers with
  | nil => intro w k h; exact absurd h (by simp)
  | cons ws rest ih =>
    intro w k h i
    cases k with
    | zero =>
      simp only [clusterDeliv, List.count_append, Nat.add_zero]
      rw [clusterDeliv_count_lt f c rest (w + 1) (w, i) (by omega)]
      simpa [List.get] using count_map_pair w (workerDeliv 0 ws f c) i
    | succ k' =>
      have hwk : w + (k' + 1) = (w + 1) + k' := by omega
      simp only [clusterDeliv, List.count_append]
      rw [hwk, ih (w + 1) k' (by simpa using h) i]
      have hmem : ((w + 1) + k', i) ∉
          (workerDeliv 0 ws f c).map (fun i => (w, i)) := by
        intro hmem
        obtain ⟨a, -, ha⟩ := List.mem_map.mp hmem
        have : w = (w + 1) + k' := by
          have := congrArg Prod.fst ha
          simpa using this
        omega
      simp [List.count_eq_zero.mpr hmem, List.get]

/-- C4: pub/sub fan-out completeness and filter isolation.  For a publish
with CLUSTER scope and filter 0, the subscription at position `(w, i)` —
in the publishing worker or any other worker of the same root — observes
the message exactly once when it is a filter-0 subscription whose channel
matches (literally or by pattern), never when its channel does not match,
and never when it was created with a non-zero filter. -/
theorem cluster_fanout_exactly_once (workers : List (List Subscription))
    (channel : String) (w i : Nat) (hw : w < workers.length)
    (hi : i < (workers.get ⟨w, hw⟩).length) :
    (((workers.get ⟨w, hw⟩).get ⟨i, hi⟩).filter = 0 →
      channelMatches ((workers.get ⟨w, hw⟩).get ⟨i, hi⟩) channel = true →
      (clusterDeliv 0 workers 0 channel).count (w, i) = 1) ∧
    (((workers.get ⟨w, hw⟩).get ⟨i, hi⟩).filter = 0 →
      channelMatches ((workers.get ⟨w, hw⟩).get ⟨i, hi⟩) channel = false →
      (clusterDeliv 0 workers 0 channel).count (w, i) = 0) ∧
    (((workers.get ⟨w, hw⟩).get ⟨i, hi⟩).filter ≠ 0 →
      (clusterDeliv 0 workers 0 channel).count (w, i) = 0) := by
  have hcount : (clusterDeliv 0 workers 0 channel).count (w, i) =
      if deliverTo ((workers.get ⟨w, hw⟩).get ⟨i, hi⟩) 0 channel then 1
      else 0 := by
    have h1 := clusterDeliv_count_get 0 channel workers 0 w hw i
    have h2 := workerDeliv_count_get 0 channel (workers.get ⟨w, hw⟩) 0 i hi
    rw [Nat.zero_add] at h1
    rw [Nat.zero_add] at h2
    exact h1.trans h2
  refine ⟨fun hf hm => ?_, fun hf hm => ?_, fun hf => ?_⟩
  · rw [hcount, deliverTo_filter_zero _ _ hf, hm]; rfl
  · rw [hcount, deliverTo_filter_zero _ _ hf, hm]; rfl
  · rw [hcount, deliverTo_filter_nonzero _ _ hf]; rfl

/-- Witness for C4: a two-worker cluster with a matching literal
subscription, a non-matching pattern subscription and a typed-IPC (filter 9)
subscription. -/
theorem cluster_fanout_exactly_once_witness :
    ((([[⟨0, "chan", false, fun _ _ => 0⟩],
        [⟨9, "chan", false, fun _ _ => 0⟩]] :
        List (List Subscription)).get ⟨1, by norm_num⟩).get
        ⟨0, by norm_num⟩).filter ≠ 0 ∧
    (clusterDeliv 0 [[⟨0, "chan", false, fun _ _ => 0⟩],
       [⟨9, "chan", false, fun _ _ => 0⟩]] 0 "chan").count (1, 0) = 0 :=
  ⟨by decide,
    (cluster_fanout_exactly_once
      [[⟨0, "chan", false, fun _ _ => 0⟩],
       [⟨9, "chan", false, fun _ _ => 0⟩]] "chan" 1 0 (by norm_num)
      (by norm_num)).2.2 (by decide)⟩

/-- C8 counterexample: the polarity in the claim is inverted.  Publishing
`foo.bar` (filter 0) to a worker holding a literal subscription on `foo.bar`
and a pattern subscription whose match function returns 0 for the pair
(pattern, `foo.bar`) delivers only to the literal subscription — the
pattern subscription with a zero-returning matcher observes nothing,
because the `fio_match_fn` contract (fio.h lines 1407-1411) makes 0 mean
"no match". -/
theorem pattern_zero_polarity_counterexample :
    clusterDeliv 0 [[⟨0, "foo.bar", false, fun _ _ => 0⟩,
                     ⟨0, "foo.*", true, fun _ _ => 0⟩]] 0 "foo.bar" =
      [(0, 0)] := by
  rfl

/-- C8 (amended): publishing to channel `foo.bar` with filter 0 delivers
the message to a literal subscription on channel `foo.bar` and to every
pattern subscription whose match function returns non-zero for the pair
(pattern, `foo.bar`); a pattern subscription whose match function returns 0
does not observe it. -/
theorem pattern_match_polarity (workers : List (List Subscription))
    (w i : Nat) (hw : w < workers.length)
    (hi : i < (workers.get ⟨w, hw⟩).length) :
    (((workers.get ⟨w, hw⟩).get ⟨i, hi⟩).filter = 0 →
      ((workers.get ⟨w, hw⟩).get ⟨i, hi⟩).isPattern = false →
      ((workers.get ⟨w, hw⟩).get ⟨i, hi⟩).channel = "foo.bar" →
      (clusterDeliv 0 workers 0 "foo.bar").count (w, i) = 1) ∧
    (((workers.get ⟨w, hw⟩).get ⟨i, hi⟩).filter = 0 →
      ((workers.get ⟨w, hw⟩).get ⟨i, hi⟩).isPattern = true →
      ((workers.get ⟨w, hw⟩).get ⟨i, hi⟩).matcher
          ((workers.get ⟨w, hw⟩).get ⟨i, hi⟩).channel "foo.bar" ≠ 0 →
      (clusterDeliv 0 workers 0 "foo.bar").count (w, i) = 1) ∧
    (((workers.get ⟨w, hw⟩).get ⟨i, hi⟩).filter = 0 →
      ((workers.get ⟨w, hw⟩).get ⟨i, hi⟩).isPattern = true →
      ((workers.get ⟨w, hw⟩).get ⟨i, hi⟩).matcher
          ((workers.get ⟨w, hw⟩).get ⟨i, hi⟩).channel "foo.bar" = 0 →
      (clusterDeliv 0 workers 0 "foo.bar").count (w, i) = 0) := by
  have hcount : (clusterDeliv 0 workers 0 "foo.bar").count (w, i) =
      if deliverTo ((workers.get ⟨w, hw⟩).get ⟨i, hi⟩) 0 "foo.bar" then 1
      else 0 := by
    have h1 := clusterDeliv_count_get 0 "foo.bar" workers 0 w hw i
    have h2 := workerDeliv_count_get 0 "foo.bar" (workers.get ⟨w, hw⟩) 0 i hi
    rw [Nat.zero_add] at h1
    rw [Nat.zero_add] at h2
    exact h1.trans h2
  refine ⟨fun hf hp hc => ?_, fun hf hp hm => ?_, fun hf hp hm => ?_⟩
  · rw [hcount, deliverTo_filter_zero _ _ hf]
    simp only [List.get_eq_getElem] at hp hc
    simp [channelMatches, hp, hc]
  · rw [hcount, deliverTo_filter_zero _ _ hf]
    simp only [List.get_eq_getElem] at hp hm
    simp [channelMatches, hp, bne_iff_ne, hm]
  · rw [hcount, deliverTo_filter_zero _ _ hf]
    simp only [List.get_eq_getElem] at hp hm
    simp [channelMatches, hp, hm]

/-- Witness for the amended C8: one pattern subscription whose matcher
returns 1 (non-zero, a match) for `foo.bar` is delivered to exactly once. -/
theorem pattern_match_polarity_witness :
    ((([[⟨0, "foo.*", true, fun _ _ => 1⟩]] :
        List (List Subscription)).get ⟨0, by norm_num⟩).get
        ⟨0, by norm_num⟩).matcher "foo.*" "foo.bar" ≠ 0 ∧
    (clusterDeliv 0 [[⟨0, "foo.*", true, fun _ _ => 1⟩]] 0
      "foo.bar").count (0, 0) = 1 :=
  ⟨by decide,
    (pattern_match_polarity [[⟨0, "foo.*", true, fun _ _ => 1⟩]] 0 0
      (by norm_num) (by norm_num)).2.1 rfl rfl (by decide)⟩

/-- Running a timer over concatenated event lists composes. -/
theorem runTimer_append (l1 l2 : List TimerEv) : ∀ tm : Timer,
    runTimer tm (l1 ++ l2) = runTimer (runTimer tm l1) l2 := by
  induction l1 with
  | nil => intro tm; rfl
  | cons ev rest ih => intro tm; simp only [List.cons_append, runTimer]; exact ih _

/-- Length of the canonical tick schedule. -/
theorem ticksFrom_length (m : Nat) : ∀ (d r : Nat), (ticksFrom d m r).length = r := by
  intro d r
  induction r generalizing d with
  | zero => rfl
  | succ r ih => simp [ticksFrom, ih]

/-- One timer step preserves the spacing invariant: the interval is
unchanged, recorded fires stay at least one interval apart, and while the
timer is live the next deadline is at least one interval past the last
fire. -/
theorem timerStep_spacing (m : Nat) (tm : Timer) (ev : TimerEv)
    (h1 : tm.interval = m) (h2 : spacedBy m tm.fires)
    (h3 : tm.active = true → ∀ l ∈ tm.fires.getLast?, l + m ≤ tm.deadline) :
    (timerStep tm ev).interval = m ∧ spacedBy m (timerStep tm ev).fires ∧
    ((timerStep tm ev).active = true →
      ∀ l ∈ (timerStep tm ev).fires.getLast?,
        l + m ≤ (timerStep tm ev).deadline) := by
  have happend : ∀ t, tm.active = true → tm.deadline ≤ t →
      spacedBy m (tm.fires ++ [t]) := by
    intro t hact hdl
    unfold spacedBy at h2 ⊢
    refine (List.chain'_append).mpr ⟨h2, by simp, ?_⟩
    intro x hx y hy
    simp only [List.head?_cons, Option.mem_def, Option.some.injEq] at hy
    subst hy
    exact le_trans (h3 hact x hx) hdl
  cases ev with
  | shutdown =>
    by_cases hact : tm.active = true
    · simp only [timerStep, if_pos hact]
      exact ⟨h1, h2, by simp⟩
    · simp only [timerStep, if_neg hact]
      exact ⟨h1, h2, fun h => absurd h hact⟩
  | tick t =>
    by_cases hfire : tm.active = true ∧ tm.deadline ≤ t
    · simp only [timerStep, if_pos hfire]
      by_cases hr1 : tm.reps = 1
      · simp only [if_pos hr1]
        exact ⟨h1, happend t hfire.1 hfire.2, by simp⟩
      · simp only [if_neg hr1]
        by_cases hr0 : tm.reps = 0
        · simp only [if_pos hr0]
          refine ⟨h1, happend t hfire.1 hfire.2, fun _ l hl => ?_⟩
          simp only [List.getLast?_concat, Option.mem_def,
            Option.some.injEq] at hl
          subst hl
          simp [h1]
        · simp only [if_neg hr0]
          refine ⟨h1, happend t hfire.1 hfire.2, fun _ l hl => ?_⟩
          simp only [List.getLast?_concat, Option.mem_def,
            Option.some.injEq] at hl
          subst hl
          simp [h1]
    · simp only [timerStep, if_neg hfire]
      exact ⟨h1, h2, h3⟩

/-- The spacing invariant holds along any event trace. -/
theorem runTimer_spacing (m : Nat) (evs : List TimerEv) : ∀ (tm : Timer),
    tm.interval = m → spacedBy m tm.fires →
    (tm.active = true → ∀ l ∈ tm.fires.getLast?, l + m ≤ tm.deadline) →
    spacedBy m (runTimer tm evs).fires := by
  induction evs with
  | nil => intro tm _ h2 _; exact h2
  | cons ev rest ih =>
    intro tm h1 h2 h3
    obtain ⟨g1, g2, g3⟩ := timerStep_spacing m tm ev h1 h2 h3
    exact ih _ g1 g2 g3

/-- Repetition bookkeeping for a finite timer along shutdown-free traces:
while live, the fire count plus the remaining repetitions equals `k` and
`on_finish` has not run; once retired, the task has run exactly `k` times
and `on_finish` exactly once. -/
theorem runTimer_count (k : Nat) (hk : 0 < k) (evs : List TimerEv)
    (hsd : ∀ ev ∈ evs, ev ≠ TimerEv.shutdown) : ∀ (tm : Timer),
    (tm.active = true →
      1 ≤ tm.reps ∧ tm.fires.length + tm.reps = k ∧ tm.finishCount = 0) →
    (tm.active = false → tm.fires.length = k ∧ tm.finishCount = 1) →
    ((runTimer tm evs).active = true →
      1 ≤ (runTimer tm evs).reps ∧
      (runTimer tm evs).fires.length + (runTimer tm evs).reps = k ∧
      (runTimer tm evs).finishCount = 0) ∧
    ((runTimer tm evs).active = false →
      (runTimer tm evs).fires.length = k ∧
      (runTimer tm evs).finishCount = 1) := by
  induction evs with
  | nil => intro tm ha hi; exact ⟨ha, hi⟩
  | cons ev rest ih =>
    intro tm ha hi
    have hne : ev ≠ TimerEv.shutdown := hsd ev (by simp)
    have hsd' : ∀ ev ∈ rest, ev ≠ TimerEv.shutdown :=
      fun e he => hsd e (by simp [he])
    cases ev with
    | shutdown => exact absurd rfl hne
    | tick t =>
      refine ih hsd' (timerStep tm (.tick t)) ?_ ?_
      · intro hact
        by_cases hfire : tm.active = true ∧ tm.deadline ≤ t
        · obtain ⟨hr, hc, hf⟩ := ha hfire.1
          by_cases hr1 : tm.reps = 1
          · simp [timerStep, if_pos hfire, hr1] at hact
          · by_cases hr0 : tm.reps = 0
            · omega
            · simp only [timerStep, if_pos hfire, if_neg hr1, if_neg hr0]
              simp only [List.length_append, List.length_cons,
                List.length_nil]
              omega
        · simp only [timerStep, if_neg hfire]
          simp only [timerStep, if_neg hfire] at hact
          exact ha hact
      · intro hact
        by_cases hfire : tm.active = true ∧ tm.deadline ≤ t
        · obtain ⟨hr, hc, hf⟩ := ha hfire.1
          by_cases hr1 : tm.reps = 1
          · simp only [timerStep, if_pos hfire, if_pos hr1]
            simp only [List.length_append, List.length_cons, List.length_nil]
            omega
          · by_cases hr0 : tm.reps = 0
            · omega
            · simp [timerStep, if_pos hfire, if_neg hr1, if_neg hr0] at hact
              exact absurd hact (by simp [hfire.1])
        · simp only [timerStep, if_neg hfire]
          simp only [timerStep, if_neg hfire] at hact
          exact hi hact

/-- Running a live finite timer over its canonical tick schedule fires it
once per remaining repetition and then runs `on_finish` exactly once. -/
theorem runTimer_ticksFrom : ∀ (r : Nat) (tm : Timer),
    tm.active = true → tm.reps = r → 1 ≤ r →
    (runTimer tm
        ((ticksFrom tm.deadline tm.interval r).map TimerEv.tick)).fires =
      tm.fires ++ ticksFrom tm.deadline tm.interval r ∧
    (runTimer tm
        ((ticksFrom tm.deadline tm.interval r).map TimerEv.tick)).finishCount =
      tm.finishCount + 1 ∧
    (runTimer tm
        ((ticksFrom tm.deadline tm.interval r).map TimerEv.tick)).active =
      false := by
  intro r
  induction r with
  | zero => intro tm _ _ h; omega
  | succ r ih =>
    intro tm hact hreps hr
    have hfire : tm.active = true ∧ tm.deadline ≤ tm.deadline :=
      ⟨hact, le_refl _⟩
    by_cases hr0 : r = 0
    · subst hr0
      have hr1 : tm.reps = 1 := hreps
      simp only [ticksFrom, List.map_cons, List.map_nil, runTimer,
        timerStep, if_pos hfire, if_pos hr1]
      simp
    · have hne1 : tm.reps ≠ 1 := by omega
      have hne0 : tm.reps ≠ 0 := by omega
      simp only [ticksFrom, List.map_cons, runTimer, timerStep,
        if_pos hfire, if_neg hne1, if_neg hne0]
      obtain ⟨g1, g2, g3⟩ :=
        ih { tm with fires := tm.fires ++ [tm.deadline],
                     reps := tm.reps - 1,
                     deadline := tm.deadline + tm.interval }
          (by simpa using hact) (by dsimp only; omega) (by omega)
      dsimp only at g1 g2 g3
      refine ⟨?_, g2, g3⟩
      rw [g1]
      simp

/-- A repeat-forever timer stays live with no `on_finish` along any
shutdown-free trace. -/
theorem runTimer_forever (evs : List TimerEv)
    (hsd : ∀ ev ∈ evs, ev ≠ TimerEv.shutdown) : ∀ (tm : Timer),
    tm.active = true → tm.finishCount = 0 → tm.reps = 0 →
    (runTimer tm evs).active = true ∧
    (runTimer tm evs).finishCount = 0 ∧ (runTimer tm evs).reps = 0 := by
  induction evs with
  | nil => intro tm h1 h2 h3; exact ⟨h1, h2, h3⟩
  | cons ev rest ih =>
    intro tm h1 h2 h3
    have hne : ev ≠ TimerEv.shutdown := hsd ev (by simp)
    have hsd' : ∀ ev ∈ rest, ev ≠ TimerEv.shutdown :=
      fun e he => hsd e (by simp [he])
    cases ev with
    | shutdown => exact absurd rfl hne
    | tick t =>
      by_cases hfire : tm.active = true ∧ tm.deadline ≤ t
      · have hne1 : tm.reps ≠ 1 := by omega
        simp only [runTimer, timerStep, if_pos hfire, if_neg hne1,
          if_pos h3]
        exact ih hsd' _ (by simp [h1]) (by simp [h2]) (by simp [h3])
      · simp only [runTimer, timerStep, if_neg hfire]
        exact ih hsd' _ h1 h2 h3

/-- A repeat-forever timer fires on every tick of its canonical schedule,
of any length, staying live with no `on_finish`. -/
theorem runTimer_ticksFrom_forever : ∀ (r : Nat) (tm : Timer),
    tm.active = true → tm.reps = 0 →
    (runTimer tm
        ((ticksFrom tm.deadline tm.interval r).map TimerEv.tick)).fires =
      tm.fires ++ ticksFrom tm.deadline tm.interval r ∧
    (runTimer tm
        ((ticksFrom tm.deadline tm.interval r).map TimerEv.tick)).active =
      true ∧
    (runTimer tm
        ((ticksFrom tm.deadline tm.interval r).map TimerEv.tick)).finishCount =
      tm.finishCount ∧
    (runTimer tm
        ((ticksFrom tm.deadline tm.interval r).map TimerEv.tick)).reps =
      0 := by
  intro r
  induction r with
  | zero =>
    intro tm h1 h2
    exact ⟨by simp [ticksFrom, runTimer], h1, rfl, h2⟩
  | succ r ih =>
    intro tm hact hreps
    have hfire : tm.active = true ∧ tm.deadline ≤ tm.deadline :=
      ⟨hact, le_refl _⟩
    have hne1 : tm.reps ≠ 1 := by omega
    simp only [ticksFrom, List.map_cons, runTimer, timerStep, if_pos hfire,
      if_neg hne1, if_pos hreps]
    obtain ⟨g1, g2, g3, g4⟩ :=
      ih { tm with fires := tm.fires ++ [tm.deadline],
                   deadline := tm.deadline + tm.interval }
        (by simpa using hact) (by simpa using hreps)
    dsimp only at g1 g2 g3 g4
    refine ⟨?_, g2, g3, g4⟩
    rw [g1]
    simp

/-- C5: timer firing count.  For `fio_run_every(m, k, task, arg,
on_finish)`: (a) along every event trace, consecutive task invocations are
spaced no less than `m` milliseconds apart; (b) for `k > 0`, along every
shutdown-free trace the task runs at most `k` times, and `on_finish` has
run exactly once when the task has run exactly `k` times and not before;
(c) for `k > 0`, the canonical tick schedule makes the task run exactly `k`
times followed by exactly one `on_finish`; (d) for `k = 0` the timer
repeats until shutdown: along every shutdown-free trace it is still live
with no `on_finish`, every tick at or past the deadline fires the task
again, and shutdown fires the task no further but runs `on_finish` exactly
once; (e) for `k = 0` the canonical tick schedule of any length `r` makes
the task run exactly those `r` times with the timer still live, and a
shutdown then runs `on_finish` exactly once. -/
theorem fio_run_every_firing (m k start : Nat) :
    (∀ evs : List TimerEv,
      spacedBy m (runTimer (fio_run_every m k start) evs).fires) ∧
    (0 < k → ∀ evs : List TimerEv, (∀ ev ∈ evs, ev ≠ TimerEv.shutdown) →
      (runTimer (fio_run_every m k start) evs).fires.length ≤ k ∧
      (runTimer (fio_run_every m k start) evs).finishCount =
        (if (runTimer (fio_run_every m k start) evs).fires.length = k
         then 1 else 0)) ∧
    (0 < k →
      (runTimer (fio_run_every m k start)
          ((ticksFrom (start + m) m k).map TimerEv.tick)).fires =
        ticksFrom (start + m) m k ∧
      (runTimer (fio_run_every m k start)
          ((ticksFrom (start + m) m k).map TimerEv.tick)).fires.length = k ∧
      (runTimer (fio_run_every m k start)
          ((ticksFrom (start + m) m k).map TimerEv.tick)).finishCount = 1) ∧
    (k = 0 → ∀ evs : List TimerEv, (∀ ev ∈ evs, ev ≠ TimerEv.shutdown) →
      (runTimer (fio_run_every m k start) evs).active = true ∧
      (runTimer (fio_run_every m k start) evs).finishCount = 0 ∧
      (∀ t, (runTimer (fio_run_every m k start) evs).deadline ≤ t →
        (runTimer (fio_run_every m k start)
            (evs ++ [TimerEv.tick t])).fires =
          (runTimer (fio_run_every m k start) evs).fires ++ [t]) ∧
      (runTimer (fio_run_every m k start)
          (evs ++ [TimerEv.shutdown])).fires =
        (runTimer (fio_run_every m k start) evs).fires ∧
      (runTimer (fio_run_every m k start)
        (evs ++ [TimerEv.shutdown])).finishCount = 1) ∧
    (k = 0 → ∀ r : Nat,
      (runTimer (fio_run_every m k start)
          ((ticksFrom (start + m) m r).map TimerEv.tick)).fires =
        ticksFrom (start + m) m r ∧
      (runTimer (fio_run_every m k start)
          ((ticksFrom (start + m) m r).map TimerEv.tick)).active = true ∧
      (runTimer (fio_run_every m k start)
        (((ticksFrom (start + m) m r).map TimerEv.tick) ++
          [TimerEv.shutdown])).finishCount = 1) := by
  refine ⟨fun evs => ?_, fun hk evs hsd => ?_, fun hk => ?_,
    fun hk evs hsd => ?_, fun hk r => ?_⟩
  · exact runTimer_spacing m evs (fio_run_every m k start) rfl
      (by simp [fio_run_every, spacedBy]) (by simp [fio_run_every])
  · obtain ⟨hlive, hdead⟩ := runTimer_count k hk evs hsd
      (fio_run_every m k start)
      (fun _ => ⟨hk, by simp [fio_run_every], rfl⟩)
      (by intro h; simp [fio_run_every] at h)
    by_cases hact : (runTimer (fio_run_every m k start) evs).active = true
    · obtain ⟨g1, g2, g3⟩ := hlive hact
      constructor
      · omega
      · rw [g3, if_neg (by omega)]
    · obtain ⟨g1, g2⟩ := hdead (by simpa using hact)
      constructor
      · omega
      · rw [g2, if_pos g1]
  · have := runTimer_ticksFrom k (fio_run_every m k start) rfl rfl hk
    simp only [fio_run_every] at this
    obtain ⟨g1, g2, g3⟩ := this
    refine ⟨by simpa using g1, ?_, by simpa using g2⟩
    have : (runTimer (fio_run_every m k start)
        ((ticksFrom (start + m) m k).map TimerEv.tick)).fires =
      ticksFrom (start + m) m k := by simpa using g1
    rw [this, ticksFrom_length]
  · subst hk
    obtain ⟨g1, g2, g3⟩ := runTimer_forever evs hsd
      (fio_run_every m 0 start) rfl rfl rfl
    refine ⟨g1, g2, fun t ht => ?_, ?_, ?_⟩
    · rw [runTimer_append]
      simp [runTimer, timerStep, g1, ht, g3]
    · rw [runTimer_append]
      simp [runTimer, timerStep, g1]
    · rw [runTimer_append]
      simp [runTimer, timerStep, g1, g2]
  · subst hk
    have := runTimer_ticksFrom_forever r (fio_run_every m 0 start) rfl rfl
    simp only [fio_run_every] at this
    obtain ⟨g1, g2, g3, -⟩ := this
    have g1' : (runTimer (fio_run_every m 0 start)
        ((ticksFrom (start + m) m r).map TimerEv.tick)).fires =
        ticksFrom (start + m) m r := by simpa using g1
    have g2' : (runTimer (fio_run_every m 0 start)
        ((ticksFrom (start + m) m r).map TimerEv.tick)).active = true := by
      simpa using g2
    have g3' : (runTimer (fio_run_every m 0 start)
        ((ticksFrom (start + m) m r).map TimerEv.tick)).finishCount = 0 := by
      simpa using g3
    refine ⟨g1', g2', ?_⟩
    rw [runTimer_append]
    simp [runTimer, timerStep, g2', g3']

/-- Witness for C5: with interval 2 and 3 repetitions starting at time 0,
ticks at 2, 4, 6 fire the task three times and `on_finish` once; with 0
repetitions a tick then shutdown runs `on_finish` exactly once, and the
canonical two-tick schedule fires the task both times with the timer still
live, `on_finish` firing exactly once at the shutdown that follows. -/
theorem fio_run_every_firing_witness :
    0 < 3 ∧
    (runTimer (fio_run_every 2 3 0)
      ((ticksFrom (0 + 2) 2 3).map TimerEv.tick)).fires.length = 3 ∧
    (runTimer (fio_run_every 2 3 0)
      ((ticksFrom (0 + 2) 2 3).map TimerEv.tick)).finishCount = 1 ∧
    (runTimer (fio_run_every 2 0 0)
      ([TimerEv.tick 2] ++ [TimerEv.shutdown])).finishCount = 1 ∧
    (runTimer (fio_run_every 2 0 0)
      ((ticksFrom (0 + 2) 2 2).map TimerEv.tick)).fires =
      ticksFrom (0 + 2) 2 2 ∧
    (runTimer (fio_run_every 2 0 0)
      (((ticksFrom (0 + 2) 2 2).map TimerEv.tick) ++
        [TimerEv.shutdown])).finishCount = 1 :=
  ⟨by decide,
    ((fio_run_every_firing 2 3 0).2.2.1 (by decide)).2.1,
    ((fio_run_every_firing 2 3 0).2.2.1 (by decide)).2.2,
    ((fio_run_every_firing 2 0 0).2.2.2.1 rfl [TimerEv.tick 2]
      (by decide)).2.2.2.2,
    ((fio_run_every_firing 2 0 0).2.2.2.2 rfl 2).1,
    ((fio_run_every_firing 2 0 0).2.2.2.2 rfl 2).2.2⟩

/-- Coercion of a list append into multisets. -/
theorem coe_append_ms (l1 l2 : List Nat) :
    ((l1 ++ l2 : List Nat) : Multiset Nat) =
      (l1 : Multiset Nat) + (l2 : Multiset Nat) :=
  (Multiset.coe_add l1 l2).symm

/-- Enqueueing a packet adds exactly its bytes to the pending multiset,
wherever the urgency flag places it. -/
theorem pendingMS_enqueue (u : Bool) (b : List Nat) (q : List Packet) :
    pendingMS (enqueuePacket u b q) = pendingMS q + (b : Multiset Nat) := by
  cases u with
  | false =>
    simp [enqueuePacket, pendingMS, Packet.remaining]
  | true =>
    cases q with
    | nil => simp [enqueuePacket, pendingMS, Packet.remaining]
    | cons h t =>
      by_cases ho : 0 < h.offset
      · simp [enqueuePacket, pendingMS, Packet.remaining, ho]
        abel
      · simp [enqueuePacket, pendingMS, Packet.remaining, ho]
        abel

/-- A flush step conserves bytes: delivered plus pending is unchanged. -/
theorem wqStep_flush_conserves (q : List Packet) (d : List Nat) (n : Nat) :
    ((wqStep ⟨q, d⟩ (.flush n)).delivered : Multiset Nat) +
      pendingMS (wqStep ⟨q, d⟩ (.flush n)).queue =
    (d : Multiset Nat) + pendingMS q := by
  cases q with
  | nil => rfl
  | cons h t =>
    simp only [wqStep]
    by_cases hend :
        h.offset + min n (h.bytes.length - h.offset) = h.bytes.length
    · rw [if_pos hend]
      have htake : (h.bytes.drop h.offset).take
          (min n (h.bytes.length - h.offset)) = h.remaining := by
        unfold Packet.remaining
        have : min n (h.bytes.length - h.offset) =
            (h.bytes.drop h.offset).length := by
          simp only [List.length_drop]
          omega
        rw [this, List.take_length]
      simp only [htake, pendingMS, List.map_cons, List.sum_cons,
        coe_append_ms]
      abel
    · rw [if_neg hend]
      simp only [pendingMS, List.map_cons, List.sum_cons, coe_append_ms]
      have hsplit : ((h.remaining : List Nat) : Multiset Nat) =
          ((h.bytes.drop h.offset).take (min n (h.bytes.length - h.offset)) :
            Multiset Nat) +
          ((Packet.remaining ⟨h.bytes,
              h.offset + min n (h.bytes.length - h.offset)⟩ :
            List Nat) : Multiset Nat) := by
        unfold Packet.remaining
        rw [← coe_append_ms]
        congr 1
        rw [← List.drop_drop]
        exact (List.take_append_drop _ _).symm
      rw [hsplit]
      abel

/-- The byte-conservation and empty-queue-after-close invariant of the
connection machine along any event trace. -/
theorem runConn_inv (evs : List ConnEv) : ∀ (s : ConnState),
    (s.fatal = false →
      (s.delivered : Multiset Nat) + pendingMS s.queue = s.accepted) →
    (s.onCloseRan = true → s.queue = []) →
    ((runConn s evs).fatal = false →
      ((runConn s evs).delivered : Multiset Nat) +
        pendingMS (runConn s evs).queue = (runConn s evs).accepted) ∧
    ((runConn s evs).onCloseRan = true → (runConn s evs).queue = []) := by
  induction evs with
  | nil => intro s h1 h2; exact ⟨h1, h2⟩
  | cons ev rest ih =>
    intro s h1 h2
    refine ih (connStep s ev) ?_ ?_
    · intro hf
      cases ev with
      | write u b =>
        by_cases hrej : s.closing || s.onCloseRan
        · simp only [connStep, if_pos hrej] at hf ⊢
          exact h1 hf
        · simp only [connStep, if_neg hrej] at hf ⊢
          rw [pendingMS_enqueue, ← add_assoc, h1 hf]
      | close =>
        by_cases hran : s.onCloseRan
        · simp only [connStep, if_pos hran] at hf ⊢
          exact h1 hf
        · simp only [connStep, if_neg hran] at hf ⊢
          exact h1 hf
      | flush n =>
        by_cases hran : s.onCloseRan
        · simp only [connStep, if_pos hran] at hf ⊢
          exact h1 hf
        · simp only [connStep, if_neg hran] at hf ⊢
          rw [wqStep_flush_conserves s.queue s.delivered n]
          exact h1 hf
      | ioFatal =>
        by_cases hran : s.onCloseRan
        · simp only [connStep, if_pos hran] at hf ⊢
          exact h1 hf
        · simp only [connStep, if_neg hran] at hf
          exact absurd hf (by decide)
    · intro hran
      cases ev with
      | write u b =>
        by_cases hrej : s.closing || s.onCloseRan
        · simp only [connStep, if_pos hrej] at hran ⊢
          exact h2 hran
        · simp only [connStep, if_neg hrej] at hran ⊢
          exact absurd hran (by
            simp only [Bool.or_eq_true, not_or] at hrej
            simpa using hrej.2)
      | close =>
        by_cases hr : s.onCloseRan
        · simp only [connStep, if_pos hr] at hran ⊢
          exact h2 hran
        · simp only [connStep, if_neg hr] at hran ⊢
          exact h2 hran
      | flush n =>
        by_cases hr : s.onCloseRan
        · simp only [connStep, if_pos hr] at hran ⊢
          exact h2 hran
        · simp only [connStep, if_neg hr] at hran ⊢
          rcases Bool.and_eq_true _ _ |>.mp hran with ⟨-, hempty⟩
          exact List.isEmpty_iff.mp hempty
      | ioFatal =>
        by_cases hr : s.onCloseRan
        · simp only [connStep, if_pos hr] at hran ⊢
          exact h2 hran
        · simp only [connStep, if_neg hr]

/-- C3: drain before close.  Along every event trace on a fresh connection
(graceful close only — `fio_force_close` is not among the events), once the
protocol's `on_close` has run, either an io-fatal error occurred, or the
write queue is empty and the bytes delivered to the socket are exactly the
bytes of every packet accepted into the queue at or before the close
(writes after the close are rejected): no queued byte is silently dropped
by a graceful close. -/
theorem drain_before_close (evs : List ConnEv)
    (h : (runConn connInit evs).onCloseRan = true) :
    (runConn connInit evs).fatal = true ∨
    ((runConn connInit evs).queue = [] ∧
      ((runConn connInit evs).delivered : Multiset Nat) =
        (runConn connInit evs).accepted) := by
  obtain ⟨h1, h2⟩ := runConn_inv evs connInit (fun _ => rfl) (by intro h'; cases h')
  by_cases hf : (runConn connInit evs).fatal = true
  · exact Or.inl hf
  · have hempty := h2 h
    have hcons := h1 (by simpa using hf)
    rw [hempty] at hcons
    refine Or.inr ⟨hempty, ?_⟩
    simpa [pendingMS] using hcons

/-- Witness for C3: two bytes written, close, one flush pass — `on_close`
has run, no fatal error, and both bytes were delivered. -/
theorem drain_before_close_witness :
    (runConn connInit
      [ConnEv.write false [1, 2], ConnEv.close, ConnEv.flush 5]).onCloseRan =
      true ∧
    ((runConn connInit
        [ConnEv.write false [1, 2], ConnEv.close, ConnEv.flush 5]).fatal =
        true ∨
      ((runConn connInit
          [ConnEv.write false [1, 2], ConnEv.close, ConnEv.flush 5]).queue =
          [] ∧
        ((runConn connInit
            [ConnEv.write false [1, 2], ConnEv.close,
              ConnEv.flush 5]).delivered : Multiset Nat) =
          (runConn connInit
            [ConnEv.write false [1, 2], ConnEv.close,
              ConnEv.flush 5]).accepted)) :=
  ⟨by decide,
    drain_before_close [ConnEv.write false [1, 2], ConnEv.close,
      ConnEv.flush 5] (by decide)⟩

/-- A queue whose head (if any) has offset 0 abstracts to a fully
not-yet-begun packet list. -/
theorem wqAbs_head0 (q : List Packet) (d : List Nat)
    (h0 : ∀ p ∈ q, p.offset = 0) :
    wqAbs ⟨q, d⟩ = ⟨d, 0, q.map Packet.bytes⟩ := by
  cases q with
  | nil => rfl
  | cons p t =>
    have hp : p.offset = 0 := h0 p (by simp)
    simp [wqAbs, hp]

/-- Introduction rule for well-formedness of a non-empty queue. -/
theorem WQWF_cons (h : Packet) (t : List Packet) (d : List Nat)
    (h1 : 0 < h.offset → h.offset < h.bytes.length)
    (h2 : ∀ p ∈ t, p.offset = 0) : WQWF ⟨h :: t, d⟩ := by
  constructor
  · intro p hp
    simp only [List.head?_cons, Option.mem_def, Option.some.injEq] at hp
    subst hp
    exact h1
  · simpa using h2

/-- The empty queue is well-formed. -/
theorem WQWF_nil (d : List Nat) : WQWF ⟨[], d⟩ := by
  constructor <;> simp

/-- The head constraint of a well-formed non-empty queue. -/
theorem WQWF_head {h : Packet} {t : List Packet} {d : List Nat}
    (hwf : WQWF ⟨h :: t, d⟩) : 0 < h.offset → h.offset < h.bytes.length :=
  hwf.1 h (by simp)

/-- The tail constraint of a well-formed non-empty queue. -/
theorem WQWF_tail {h : Packet} {t : List Packet} {d : List Nat}
    (hwf : WQWF ⟨h :: t, d⟩) : ∀ p ∈ t, p.offset = 0 := by
  intro p hp
  exact hwf.2 p (by simpa using hp)

/-- Enqueueing preserves the abstraction: the byte-level step commutes with
the claim-side step. -/
theorem wqStep_enq_sim (s : WQState) (u : Bool) (b : List Nat)
    (hwf : WQWF s) :
    wqAbs (wqStep s (.enq u b)) = specWQStep (wqAbs s) (.enq u b) ∧
    WQWF (wqStep s (.enq u b)) := by
  obtain ⟨q, d⟩ := s
  cases u with
  | false =>
    have hq : wqStep ⟨q, d⟩ (.enq false b) = ⟨q ++ [⟨b, 0⟩], d⟩ := by
      simp [wqStep, enqueuePacket]
    cases q with
    | nil =>
      rw [hq]
      exact ⟨by simp [wqAbs, specWQStep], WQWF_cons _ _ _ (by simp) (by simp)⟩
    | cons h t =>
      rw [hq]
      constructor
      · by_cases ho : 0 < h.offset
        · simp [wqAbs, specWQStep, ho]
        · simp [wqAbs, specWQStep, ho]
      · refine WQWF_cons _ _ _ (WQWF_head hwf) ?_
        intro p hp
        rcases List.mem_append.mp hp with hp | hp
        · exact WQWF_tail hwf p hp
        · simp only [List.mem_singleton] at hp
          subst hp
          rfl
  | true =>
    cases q with
    | nil =>
      have hq : wqStep ⟨[], d⟩ (.enq true b) = ⟨[⟨b, 0⟩], d⟩ := by
        simp [wqStep, enqueuePacket]
      rw [hq]
      exact ⟨by simp [wqAbs, specWQStep], WQWF_cons _ _ _ (by simp) (by simp)⟩
    | cons h t =>
      by_cases ho : 0 < h.offset
      · have hq : wqStep ⟨h :: t, d⟩ (.enq true b) =
            ⟨h :: ⟨b, 0⟩ :: t, d⟩ := by
          simp [wqStep, enqueuePacket, ho]
        rw [hq]
        constructor
        · simp [wqAbs, specWQStep, ho]
        · refine WQWF_cons _ _ _ (WQWF_head hwf) ?_
          intro p hp
          rcases List.mem_cons.mp hp with hp | hp
          · subst hp; rfl
          · exact WQWF_tail hwf p hp
      · have hq : wqStep ⟨h :: t, d⟩ (.enq true b) =
            ⟨⟨b, 0⟩ :: h :: t, d⟩ := by
          simp [wqStep, enqueuePacket, ho]
        rw [hq]
        constructor
        · simp [wqAbs, specWQStep, ho]
        · refine WQWF_cons _ _ _ (by simp) ?_
          intro p hp
          rcases List.mem_cons.mp hp with hp | hp
          · subst hp
            omega
          · exact WQWF_tail hwf p hp

/-- A queue whose packets are all untouched is well-formed. -/
theorem WQWF_of_all0 (q : List Packet) (d : List Nat)
    (h0 : ∀ p ∈ q, p.offset = 0) : WQWF ⟨q, d⟩ := by
  cases q with
  | nil => exact WQWF_nil d
  | cons p t =>
    refine WQWF_cons _ _ _ ?_ ?_
    · rw [h0 p (by simp)]
      omega
    · intro x hx
      exact h0 x (by simp [hx])
/-- Flushing preserves the abstraction: one pass of the flusher commutes
with the claim-side step. -/
theorem wqStep_flush_sim (s : WQState) (n : Nat) (hwf : WQWF s) :
    wqAbs (wqStep s (.flush n)) = specWQStep (wqAbs s) (.flush n) ∧
    WQWF (wqStep s (.flush n)) := by
  obtain ⟨q, d⟩ := s
  cases q with
  | nil =>
    have hq : wqStep ⟨[], d⟩ (.flush n) = ⟨[], d⟩ := rfl
    rw [hq]
    exact ⟨by simp [wqAbs, specWQStep], WQWF_nil d⟩
  | cons h t =>
    have hr : h.remaining.length = h.bytes.length - h.offset := by
      simp [Packet.remaining]
    have htail := WQWF_tail hwf
    by_cases ho : 0 < h.offset
    · have hol := WQWF_head hwf ho
      by_cases hend :
          h.offset + min n (h.bytes.length - h.offset) = h.bytes.length
      · -- begun head, fully drained: pop it
        have htake : (h.bytes.drop h.offset).take
            (min n (h.bytes.length - h.offset)) = h.remaining := by
          unfold Packet.remaining
          have hlen : min n (h.bytes.length - h.offset) =
              (h.bytes.drop h.offset).length := by
            simp only [List.length_drop]
            omega
          rw [hlen, List.take_length]
        have hq : wqStep ⟨h :: t, d⟩ (.flush n) = ⟨t, d ++ h.remaining⟩ := by
          simp [wqStep, hend, htake]
        rw [hq, wqAbs_head0 t (d ++ h.remaining) htail]
        constructor
        · simp only [wqAbs, if_pos ho, specWQStep]
          rw [if_pos (by simp only [hr]; omega)]
          simp only [SpecWQ.mk.injEq, and_true, true_and]
          omega
        · exact WQWF_of_all0 t _ htail
      · -- begun head, partial write of n bytes
        have hkn : min n (h.bytes.length - h.offset) = n := by omega
        have hoffn : ¬h.offset + n = h.bytes.length := by omega
        have hq : wqStep ⟨h :: t, d⟩ (.flush n) =
            ⟨⟨h.bytes, h.offset + n⟩ :: t,
              d ++ (h.bytes.drop h.offset).take n⟩ := by
          simp [wqStep, hkn, hoffn]
        rw [hq]
        constructor
        · have hfix : d ++ (h.bytes.drop h.offset).take n ++
              h.bytes.drop (h.offset + n) = d ++ h.bytes.drop h.offset := by
            rw [List.append_assoc, List.drop_take_append_drop]
          simp only [wqAbs, if_pos ho, if_pos (by omega : 0 < h.offset + n),
            specWQStep, Packet.remaining]
          rw [if_pos (by simp only [List.length_drop]; omega)]
          simp only [SpecWQ.mk.injEq, hfix, List.length_drop, and_true,
            true_and]
          omega
        · refine WQWF_cons _ _ _ (by dsimp only; intro _; omega) htail
    · -- untouched head
      have ho0 : h.offset = 0 := by omega
      by_cases hstall : n = 0 ∧ h.bytes ≠ []
      · -- would-block with a pending packet: both machines stall
        have hlp : 0 < h.bytes.length := List.length_pos.mpr hstall.2
        have hkn : min n (h.bytes.length - h.offset) = 0 := by
          simp [hstall.1]
        have hoffn : ¬h.offset + 0 = h.bytes.length := by omega
        have hoffn0 : ¬h.offset = h.bytes.length := by omega
        have hq : wqStep ⟨h :: t, d⟩ (.flush n) =
            ⟨⟨h.bytes, h.offset + 0⟩ :: t, d⟩ := by
          simp [wqStep, hkn, hoffn, hoffn0]
        rw [hq]
        constructor
        · simp [wqAbs, specWQStep, ho0, hstall.1, hstall.2]
        · refine WQWF_cons _ _ _ (by simp [ho0]) htail
      · by_cases hend :
            h.offset + min n (h.bytes.length - h.offset) = h.bytes.length
        · -- untouched head written out in full: pop it
          have htake : (h.bytes.drop h.offset).take
              (min n (h.bytes.length - h.offset)) = h.bytes := by
            have hlen : min n (h.bytes.length - h.offset) =
                (h.bytes.drop h.offset).length := by
              simp only [List.length_drop]
              omega
            rw [hlen, List.take_length, ho0, List.drop_zero]
          have hq : wqStep ⟨h :: t, d⟩ (.flush n) =
              ⟨t, d ++ h.bytes⟩ := by
            simp [wqStep, hend, htake]
          rw [hq, wqAbs_head0 t (d ++ h.bytes) htail]
          constructor
          · simp only [wqAbs, ho0, specWQStep, lt_irrefl, if_false]
            rw [if_neg hstall]
            simp only [SpecWQ.mk.injEq, and_true, true_and]
            omega
          · exact WQWF_of_all0 t _ htail
        · -- untouched head, partial write of n bytes
          have hkn : min n (h.bytes.length - h.offset) = n := by omega
          have hnpos : 0 < n := by
            rcases Nat.eq_zero_or_pos n with h0 | h0
            · exfalso
              rcases Classical.em (h.bytes = []) with hb | hb
              · apply hend
                simp [hb, h0, ho0]
              · exact hstall ⟨h0, hb⟩
            · exact h0
          have hoffn2 : ¬h.offset + n = h.bytes.length := by omega
          have hq : wqStep ⟨h :: t, d⟩ (.flush n) =
              ⟨⟨h.bytes, h.offset + n⟩ :: t,
                d ++ (h.bytes.drop h.offset).take n⟩ := by
            simp [wqStep, hkn, hoffn2]
          rw [hq]
          constructor
          · simp only [wqAbs, ho0, Nat.zero_add, if_pos hnpos, specWQStep,
              Packet.remaining, List.drop_zero, lt_irrefl, if_false,
              List.append_assoc, List.take_append_drop, List.length_drop]
            rw [if_neg hstall]
          · refine WQWF_cons _ _ _ (by dsimp only; intro _; omega) htail


/-- Any single event commutes with the abstraction and preserves
well-formedness. -/
theorem wqStep_sim (s : WQState) (ev : WriteEv) (hwf : WQWF s) :
    wqAbs (wqStep s ev) = specWQStep (wqAbs s) ev ∧ WQWF (wqStep s ev) := by
  cases ev with
  | enq u b => exact wqStep_enq_sim s u b hwf
  | flush n => exact wqStep_flush_sim s n hwf

/-- The byte-level write machine simulates the claim-side stream machine
along every event trace. -/
theorem runWQ_sim (evs : List WriteEv) : ∀ (s : WQState), WQWF s →
    wqAbs (runWQ s evs) = runSpecWQ (wqAbs s) evs ∧ WQWF (runWQ s evs) := by
  induction evs with
  | nil => intro s h; exact ⟨rfl, h⟩
  | cons ev rest ih =>
    intro s h
    obtain ⟨h1, h2⟩ := wqStep_sim s ev h
    obtain ⟨g1, g2⟩ := ih (wqStep s ev) h2
    refine ⟨?_, g2⟩
    show wqAbs (runWQ (wqStep s ev) rest) =
      runSpecWQ (specWQStep (wqAbs s) ev) rest
    rw [g1, h1]

/-- The abstraction preserves the total byte stream: claim-side fixed
stream plus queued packets equals delivered bytes plus pending bytes. -/
theorem wqAbs_stream (s : WQState) (hwf : WQWF s) :
    (wqAbs s).fixedStream ++ flattenBytes (wqAbs s).pkts =
      s.delivered ++ pendingBytes s.queue := by
  obtain ⟨q, d⟩ := s
  cases q with
  | nil => simp [wqAbs, pendingBytes, flattenBytes]
  | cons h t =>
    have hmap : t.map Packet.bytes = t.map Packet.remaining := by
      apply List.map_congr_left
      intro p hp
      simp [Packet.remaining, WQWF_tail hwf p hp]
    by_cases ho : 0 < h.offset
    · simp only [wqAbs, if_pos ho, pendingBytes, List.map_cons,
        flattenBytes, hmap, List.append_assoc]
    · have ho0 : h.offset = 0 := by omega
      simp only [wqAbs, if_neg ho, pendingBytes, List.map_cons,
        flattenBytes, hmap, Packet.remaining, ho0, List.drop_zero,
        lt_irrefl, if_false]

/-- C2: FIFO write order with urgent insertion.  For every sequence of
enqueues and flush passes on one connection, the bytes delivered to the
peer followed by the still-pending queue bytes equal the stream computed by
the claim's discipline: non-urgent packets concatenated in enqueue-call
order, each urgent packet inserted at the head of the queue before any
packet whose transmission has not yet begun (a partially written packet
stays in front).  In particular, once the queue drains, the delivered
stream is exactly that stream. -/
theorem fifo_urgent_write_order (evs : List WriteEv) :
    (runWQ ⟨[], []⟩ evs).delivered ++
        pendingBytes (runWQ ⟨[], []⟩ evs).queue =
      (runSpecWQ ⟨[], 0, []⟩ evs).fixedStream ++
        flattenBytes (runSpecWQ ⟨[], 0, []⟩ evs).pkts ∧
    ((runWQ ⟨[], []⟩ evs).queue = [] →
      (runWQ ⟨[], []⟩ evs).delivered =
        (runSpecWQ ⟨[], 0, []⟩ evs).fixedStream ++
          flattenBytes (runSpecWQ ⟨[], 0, []⟩ evs).pkts) := by
  obtain ⟨hsim, hwf⟩ := runWQ_sim evs ⟨[], []⟩ (WQWF_nil [])
  have habs : wqAbs (⟨[], []⟩ : WQState) = ⟨[], 0, []⟩ := rfl
  rw [habs] at hsim
  have hstream := wqAbs_stream (runWQ ⟨[], []⟩ evs) hwf
  rw [hsim] at hstream
  refine ⟨hstream.symm, fun hq => ?_⟩
  rw [hstream, hq]
  simp [pendingBytes, flattenBytes]

/-- Witness for C2: the spec's scenario S3 — enqueue `AAAA`, urgent `BB`,
then `CCCC`, flush everything: the peer reads `BBAAAACCCC`. -/
theorem fifo_urgent_write_order_witness :
    (runWQ ⟨[], []⟩
      [WriteEv.enq false [65, 65, 65, 65], WriteEv.enq true [66, 66],
        WriteEv.enq false [67, 67, 67, 67], WriteEv.flush 10,
        WriteEv.flush 10, WriteEv.flush 10]).queue = [] ∧
    (runWQ ⟨[], []⟩
      [WriteEv.enq false [65, 65, 65, 65], WriteEv.enq true [66, 66],
        WriteEv.enq false [67, 67, 67, 67], WriteEv.flush 10,
        WriteEv.flush 10, WriteEv.flush 10]).delivered =
      (runSpecWQ ⟨[], 0, []⟩
        [WriteEv.enq false [65, 65, 65, 65], WriteEv.enq true [66, 66],
          WriteEv.enq false [67, 67, 67, 67], WriteEv.flush 10,
          WriteEv.flush 10, WriteEv.flush 10]).fixedStream ++
        flattenBytes (runSpecWQ ⟨[], 0, []⟩
          [WriteEv.enq false [65, 65, 65, 65], WriteEv.enq true [66, 66],
            WriteEv.enq false [67, 67, 67, 67], WriteEv.flush 10,
            WriteEv.flush 10, WriteEv.flush 10]).pkts :=
  ⟨by decide,
    (fifo_urgent_write_order
      [WriteEv.enq false [65, 65, 65, 65], WriteEv.enq true [66, 66],
        WriteEv.enq false [67, 67, 67, 67], WriteEv.flush 10,
        WriteEv.flush 10, WriteEv.flush 10]).2 (by decide)⟩

end Fio
